import Mathlib

/-!
Verification of the `kokoro.tts` URL-processor pipeline.

This file gives a shallow embedding of the two core components the
specification talks about:

* the semantic chunker `htmlToText` (src/url-processor/htmlToText.js),
  modelled over parsed DOM trees (`Node`): cheerio's parsing itself is an
  external collaborator, so the embedding starts from the parsed tree with
  lower-cased tag names, exactly the view the JavaScript code manipulates;
* the Stage-5 audio generation `generateTtsAudio` together with
  `concatenateAudioWithSilence` (src/url-processor/server.js), modelled as
  pure functions over an environment describing the filesystem contents,
  the synthesis oracle and the subprocess outcomes, returning a result
  record that carries the observable trace (synthesis calls, subprocess
  invocations, produced manifest, leftover temp files).

Strings are modelled as `List Char`; JavaScript's `trim()`,
`replace(/\s+/g, " ")` and `includes("\n")` are translated character by
character below.
-/

namespace Kokoro

/-- Whitespace test used by JavaScript's `\s` and `trim()` for the character
set relevant to this code base (space, tab, newline, carriage return). -/
def isWs (c : Char) : Bool := c = ' ' || c = '\t' || c = '\n' || c = '\r'

/-- Left part of JavaScript `trim()`. -/
def trimLeft (l : List Char) : List Char := l.dropWhile isWs

/-- Right part of JavaScript `trim()`. -/
def trimRight (l : List Char) : List Char := (l.reverse.dropWhile isWs).reverse

/-- JavaScript `s.trim()`. -/
def trim (l : List Char) : List Char := trimRight (trimLeft l)

/-- Helper for `collapseWs`: the boolean records whether the previous
character was whitespace (i.e. we are inside a whitespace run whose
replacement space has already been emitted). -/
def collapseAux : List Char → Bool → List Char
  | [], _ => []
  | c :: rest, inRun =>
    if isWs c then
      if inRun then collapseAux rest true else ' ' :: collapseAux rest true
    else c :: collapseAux rest false

/-- JavaScript `s.replace(/\s+/g, " ")`: every maximal whitespace run is
replaced by a single space. -/
def collapseWs (l : List Char) : List Char := collapseAux l false

/-- JavaScript `s.replace(/\s+/g, " ").trim()`, the normalization applied
throughout `htmlToText`. -/
def collapseTrim (l : List Char) : List Char := trim (collapseWs l)

/-- A string is trimmed when it has no leading and no trailing whitespace;
stated through `dropWhile` fixed points on the string and its reverse. -/
def Trimmed (l : List Char) : Prop :=
  l.dropWhile isWs = l ∧ l.reverse.dropWhile isWs = l.reverse

/-- A string is collapsed when its only whitespace character is the plain
space and no two adjacent characters are both whitespace. -/
def Collapsed (l : List Char) : Prop :=
  (∀ c ∈ l, isWs c → c = ' ') ∧ l.Chain' (fun a b => ¬(isWs a ∧ isWs b))

/- ### Whitespace toolkit -/

theorem dropWhile_idem (p : Char → Bool) (l : List Char) :
    (l.dropWhile p).dropWhile p = l.dropWhile p := by
  induction l with
  | nil => rfl
  | cons a l ih =>
    by_cases h : p a
    · simp [List.dropWhile_cons, h, ih]
    · simp [List.dropWhile_cons, h]

theorem trimLeft_head_not_ws (l : List Char) :
    trimLeft l = [] ∨ ∃ c rest, trimLeft l = c :: rest ∧ isWs c = false := by
  induction l with
  | nil => left; rfl
  | cons a l ih =>
    by_cases h : isWs a
    · simpa [trimLeft, List.dropWhile_cons, h] using ih
    · right; exact ⟨a, l, by simp [trimLeft, List.dropWhile_cons, h], by simp [h]⟩

theorem dropWhile_cons_of_not (p : Char → Bool) (a : Char) (l : List Char) (h : ¬ p a) :
    (a :: l).dropWhile p = a :: l := by
  simp [List.dropWhile_cons, h]

/-- `trimRight` produces a prefix of its argument. -/
theorem trimRight_pre (l : List Char) : trimRight l <+: l := by
  obtain ⟨t, ht⟩ := List.dropWhile_suffix (l := l.reverse) (p := isWs)
  refine ⟨t.reverse, ?_⟩
  have h2 := congrArg List.reverse ht
  simpa [trimRight] using h2

theorem trimLeft_trimLeft (l : List Char) : trimLeft (trimLeft l) = trimLeft l :=
  dropWhile_idem _ _

theorem trimRight_trimRight (l : List Char) : trimRight (trimRight l) = trimRight l := by
  simp [trimRight, dropWhile_idem]

/-- A prefix of a left-trimmed string is itself left-trim stable. -/
theorem trimLeft_of_pre {l m : List Char} (hp : m <+: l) (hl : trimLeft l = l) :
    trimLeft m = m := by
  cases m with
  | nil => rfl
  | cons a m' =>
    by_cases h : isWs a
    · exfalso
      obtain ⟨t, ht⟩ := hp
      subst ht
      have hlen : ((m' ++ t).dropWhile isWs).length ≤ (m' ++ t).length :=
        (List.dropWhile_suffix _).length_le
      rw [show ((a :: m') ++ t) = a :: (m' ++ t) by simp] at hl
      simp only [trimLeft, List.dropWhile_cons, if_pos h] at hl
      have hcon := congrArg List.length hl
      simp only [List.length_cons] at hcon
      omega
    · exact dropWhile_cons_of_not _ _ _ (by simp [h])

theorem Trimmed.trim_eq {l : List Char} (h : Trimmed l) : trim l = l := by
  have h1 : trimLeft l = l := h.1
  have h2 : trimRight l = l := by
    simp only [trimRight]
    rw [h.2, List.reverse_reverse]
  simp [trim, h1, h2]

theorem trimmed_trim (l : List Char) : Trimmed (trim l) := by
  constructor
  · -- leading side: trim l is a prefix of trimLeft l, which is dropWhile-stable
    have hp : trimRight (trimLeft l) <+: trimLeft l := trimRight_pre _
    exact trimLeft_of_pre hp (trimLeft_trimLeft l)
  · -- trailing side: by construction the reverse is a dropWhile fixed point
    show ((trim l).reverse).dropWhile isWs = (trim l).reverse
    simp [trim, trimRight, dropWhile_idem]

theorem trim_nonempty_of_head_not_ws (c : Char) (l : List Char) (h : isWs c = false) :
    trim (c :: l) ≠ [] := by
  intro hcon
  have h1 : trimLeft (c :: l) = c :: l := dropWhile_cons_of_not _ _ _ (by simp [h])
  simp only [trim, h1, trimRight] at hcon
  have h0 : (c :: l).reverse.dropWhile isWs = [] := by
    have h2 := congrArg List.reverse hcon
    simpa using h2
  have hall := List.dropWhile_eq_nil_iff.mp h0
  have hc : isWs c = true := hall c (by simp)
  simp [h] at hc

/-- Characters of collapsed output are either the replacement space or
non-whitespace characters of the input. -/
theorem mem_collapseAux {x : Char} :
    ∀ (l : List Char) (b : Bool), x ∈ collapseAux l b → x = ' ' ∨ (x ∈ l ∧ isWs x = false) := by
  intro l
  induction l with
  | nil => intro b h; simp [collapseAux] at h
  | cons a l ih =>
    intro b h
    by_cases ha : isWs a
    · rcases b with _ | _
      · simp only [collapseAux, if_pos ha] at h
        rcases List.mem_cons.mp h with h | h
        · left; exact h
        · rcases ih true h with h | ⟨h1, h2⟩
          · left; exact h
          · right; exact ⟨List.mem_cons_of_mem _ h1, h2⟩
      · simp only [collapseAux, if_pos ha] at h
        rcases ih true h with h | ⟨h1, h2⟩
        · left; exact h
        · right; exact ⟨List.mem_cons_of_mem _ h1, h2⟩
    · simp only [collapseAux, if_neg ha] at h
      rcases List.mem_cons.mp h with h | h
      · subst h; right; exact ⟨List.mem_cons_self _ _, by simpa using ha⟩
      · rcases ih false h with h | ⟨h1, h2⟩
        · left; exact h
        · right; exact ⟨List.mem_cons_of_mem _ h1, h2⟩

theorem newline_not_mem_collapseWs (l : List Char) : '\n' ∉ collapseWs l := by
  intro h
  rcases mem_collapseAux l false h with h | ⟨_, h2⟩
  · simp at h
  · simp [isWs] at h2

theorem contains_iff_mem (l : List Char) (c : Char) : l.contains c = true ↔ c ∈ l := by
  simp [List.contains]

/-- Trimming only removes characters. -/
theorem trim_subset (l : List Char) : ∀ x ∈ trim l, x ∈ l := by
  intro x hx
  have h2 : trim l <+: trimLeft l := trimRight_pre _
  have h1 : trimLeft l <:+ l := List.dropWhile_suffix _
  exact h1.subset (h2.subset hx)

theorem collapseTrim_not_contains_newline (l : List Char) :
    (collapseTrim l).contains '\n' = false := by
  rw [Bool.eq_false_iff]
  intro h
  have hmem : '\n' ∈ collapseTrim l := (contains_iff_mem _ _).mp h
  exact newline_not_mem_collapseWs l (trim_subset _ _ hmem)

/-- The relation forbidding two adjacent whitespace characters. -/
def NoWsPair (a b : Char) : Prop := ¬(isWs a = true ∧ isWs b = true)

theorem head_collapseAux_true_not_ws :
    ∀ (l : List Char) (x : Char), (collapseAux l true).head? = some x → isWs x = false := by
  intro l
  induction l with
  | nil => intro x h; simp [collapseAux] at h
  | cons a l ih =>
    intro x h
    by_cases ha : isWs a
    · simp only [collapseAux, if_pos ha] at h
      exact ih x h
    · simp only [collapseAux, if_neg ha] at h
      simp only [List.head?_cons, Option.some.injEq] at h
      subst h
      simpa using ha

theorem chain'_collapseAux : ∀ (l : List Char) (b : Bool), (collapseAux l b).Chain' NoWsPair := by
  intro l
  induction l with
  | nil => intro b; simp [collapseAux]
  | cons a l ih =>
    intro b
    by_cases ha : isWs a
    · cases b with
      | true => simpa [collapseAux, ha] using ih true
      | false =>
        simp only [collapseAux, if_pos ha, Bool.false_eq_true, if_false]
        rw [List.chain'_cons']
        refine ⟨?_, ih true⟩
        intro y hy
        have : isWs y = false := head_collapseAux_true_not_ws l y hy
        simp [NoWsPair, this]
    · simp only [collapseAux, if_neg ha]
      rw [List.chain'_cons']
      refine ⟨?_, ih false⟩
      intro y _
      simp only [NoWsPair]
      intro hcon
      exact ha hcon.1

theorem collapsed_collapseWs (l : List Char) : Collapsed (collapseWs l) := by
  constructor
  · intro c hc hws
    rcases mem_collapseAux l false hc with h | ⟨_, h2⟩
    · exact h
    · simp [hws] at h2
  · exact chain'_collapseAux l false

/-- Being collapsed is stable under taking contiguous substrings, hence under
trimming. -/
theorem collapsed_trim {l : List Char} (h : Collapsed l) : Collapsed (trim l) := by
  constructor
  · intro c hc hws
    exact h.1 c (trim_subset _ _ hc) hws
  · -- the chain survives the left trim (a suffix) and the right trim (a
    -- suffix of the reverse), going through `chain'_reverse` for the latter
    have hA : List.Chain' (fun a b => ¬(isWs a = true ∧ isWs b = true)) (trimLeft l) :=
      h.2.suffix (List.dropWhile_suffix _)
    have hrev : List.Chain' (flip fun a b => ¬(isWs a = true ∧ isWs b = true))
        (trimLeft l).reverse := by
      rw [List.chain'_reverse]
      exact hA
    have hdrop := hrev.suffix
      (List.dropWhile_suffix (p := isWs) (l := (trimLeft l).reverse))
    have hfin : List.Chain' (fun a b => ¬(isWs a = true ∧ isWs b = true))
        ((trimLeft l).reverse.dropWhile isWs).reverse := by
      rw [List.chain'_reverse]
      exact hdrop
    exact hfin

theorem collapsed_collapseTrim (l : List Char) : Collapsed (collapseTrim l) :=
  collapsed_trim (collapsed_collapseWs l)

/-- A generic head-of-fixed-point fact: if `dropWhile` leaves a cons cell
unchanged, its head fails the predicate. -/
theorem head_not_of_dropWhile_fix {p : Char → Bool} {c : Char} {rest : List Char}
    (h : (c :: rest).dropWhile p = c :: rest) : p c = false := by
  by_contra hcon
  have hc : p c = true := by revert hcon; cases p c <;> simp
  simp only [List.dropWhile_cons, if_pos hc] at h
  have hlen : (rest.dropWhile p).length ≤ rest.length := (List.dropWhile_suffix _).length_le
  have h2 := congrArg List.length h
  simp only [List.length_cons] at h2
  omega

theorem Trimmed.head_not_ws {c : Char} {rest : List Char} (h : Trimmed (c :: rest)) :
    isWs c = false :=
  head_not_of_dropWhile_fix h.1

theorem trimmed_cons {l : List Char} (ht : Trimmed l) (hne : l ≠ []) :
    ∃ c rest, l = c :: rest ∧ isWs c = false := by
  cases l with
  | nil => exact absurd rfl hne
  | cons c rest => exact ⟨c, rest, rfl, ht.head_not_ws⟩

theorem trimmed_reverse_cons {l : List Char} (ht : Trimmed l) (hne : l ≠ []) :
    ∃ c rest, l.reverse = c :: rest ∧ isWs c = false := by
  cases hrev : l.reverse with
  | nil => exact absurd (by simpa using congrArg List.reverse hrev) hne
  | cons c rest =>
    have h2 : (c :: rest).dropWhile isWs = c :: rest := by rw [← hrev]; exact ht.2
    exact ⟨c, rest, rfl, head_not_of_dropWhile_fix h2⟩

/-- Joining two trimmed non-empty strings with any separator character keeps
them trimmed. -/
theorem trimmed_join {a b : List Char} (sep : Char)
    (ha : Trimmed a) (hb : Trimmed b) (hna : a ≠ []) (hnb : b ≠ []) :
    Trimmed (a ++ sep :: b) := by
  obtain ⟨c, a', rfl, hc⟩ := trimmed_cons ha hna
  obtain ⟨d, r, hrev, hd⟩ := trimmed_reverse_cons hb hnb
  constructor
  · rw [show ((c :: a') ++ sep :: b) = c :: (a' ++ sep :: b) by simp]
    exact dropWhile_cons_of_not _ _ _ (by simp [hc])
  · have hre : ((c :: a') ++ sep :: b).reverse = d :: (r ++ [sep] ++ (c :: a').reverse) := by
      simp [hrev]
    rw [hre]
    exact dropWhile_cons_of_not _ _ _ (by simp [hd])

theorem join_ne_nil {a b : List Char} (sep : Char) (hna : a ≠ []) :
    a ++ sep :: b ≠ [] := by
  cases a with
  | nil => exact absurd rfl hna
  | cons c a' => simp

/-- Joining two collapsed, trimmed, non-empty strings with a single space is
again collapsed. -/
theorem collapsed_space_join {a b : List Char}
    (ca : Collapsed a) (cb : Collapsed b)
    (ha : Trimmed a) (hb : Trimmed b) (hna : a ≠ []) (hnb : b ≠ []) :
    Collapsed (a ++ ' ' :: b) := by
  obtain ⟨d, r, hrev, hd⟩ := trimmed_reverse_cons ha hna
  obtain ⟨c, b', hbeq, hc⟩ := trimmed_cons hb hnb
  constructor
  · intro x hx hws
    rcases List.mem_append.mp hx with h | h
    · exact ca.1 x h hws
    · rcases List.mem_cons.mp h with h | h
      · exact h
      · exact cb.1 x h hws
  · rw [List.chain'_append]
    refine ⟨ca.2, ?_, ?_⟩
    · rw [List.chain'_cons']
      refine ⟨?_, cb.2⟩
      intro y hy
      rw [hbeq] at hy
      simp only [List.head?_cons, Option.mem_def, Option.some.injEq] at hy
      subst hy
      simp [NoWsPair, hc]
    · intro x hx y hy
      have hlast : a.getLast? = some d := by
        rw [← List.head?_reverse, hrev, List.head?_cons]
      rw [hlast] at hx
      simp only [Option.mem_def, Option.some.injEq] at hx
      subst hx
      simp only [List.head?_cons, Option.mem_def, Option.some.injEq] at hy
      subst hy
      simp [NoWsPair, hd]

/-- Trimmed non-empty strings survive `collapseTrim` non-empty. -/
theorem collapseTrim_ne_nil {l : List Char} (ht : Trimmed l) (hne : l ≠ []) :
    collapseTrim l ≠ [] := by
  obtain ⟨c, rest, rfl, hc⟩ := trimmed_cons ht hne
  show trim (collapseAux (c :: rest) false) ≠ []
  rw [show collapseAux (c :: rest) false = c :: collapseAux rest false by
    simp [collapseAux, hc]]
  exact trim_nonempty_of_head_not_ws _ _ hc

/- ### Segment model (htmlToText.js chunks) -/

/-- Segment type: `h` for headings, `p` for paragraphs, `other` for the rest,
exactly the three `type` strings used by `htmlToText`. -/
inductive ChunkType where
  | h
  | p
  | other
deriving DecidableEq, Repr

/-- One chunk produced by `htmlToText`: `{ text, type, level? }`, where the
JavaScript objects carry `level` only on heading chunks (modelled by the
`Option`). -/
structure Chunk where
  text : List Char
  type : ChunkType
  level : Option Nat := none
deriving DecidableEq, Repr

/-- Parsed markup tree, the view cheerio gives the traversal after the markup
has been loaded: text nodes (`nodeType === 3`) and element nodes
(`nodeType === 1`) with their lower-cased tag name (cheerio's `tagName` is
lower-cased by the code before every comparison; comment/doctype nodes carry
no text and are ignored by the walk, so they are not modelled). An input
document is the list of children of `body`. -/
inductive Node where
  | text : List Char → Node
  | elem : String → List Node → Node

mutual

/-- Cheerio's `$node.text()`: concatenation of all descendant text data. -/
def textContent : Node → List Char
  | .text t => t
  | .elem _ cs => textContents cs

def textContents : List Node → List Char
  | [] => []
  | n :: ns => textContent n ++ textContents ns

end

mutual

/-- Removal of `script`/`style` subtrees, performed by
`$('script, style').remove()` before the traversal starts; a removed element
disappears entirely (`none`). -/
def stripNode : Node → Option Node
  | .text t => some (.text t)
  | .elem tag cs =>
    if tag = "script" || tag = "style" then none
    else some (.elem tag (stripNodes cs))

def stripNodes : List Node → List Node
  | [] => []
  | n :: rest =>
    match stripNode n with
    | none => stripNodes rest
    | some m => m :: stripNodes rest

end

/-- The `tagName.match(/^h[1-6]$/)` test together with
`parseInt(tagName.charAt(1))`. -/
def headingLevel (tag : String) : Option Nat :=
  if tag = "h1" then some 1
  else if tag = "h2" then some 2
  else if tag = "h3" then some 3
  else if tag = "h4" then some 4
  else if tag = "h5" then some 5
  else if tag = "h6" then some 6
  else none

/-- Decimal digit character. -/
def digitChar (n : Nat) : Char := Char.ofNat (48 + n)

/-- Fuel-driven decimal printing helper (structural, so that it evaluates). -/
def natDigitsAux : Nat → Nat → List Char
  | 0, _ => []
  | fuel + 1, n =>
    if n < 10 then [digitChar n]
    else natDigitsAux fuel (n / 10) ++ [digitChar (n % 10)]

/-- JavaScript's decimal rendering of a natural number, as used by the
template literal for ordered-list indices. -/
def natDigits (n : Nat) : List Char := natDigitsAux (n + 1) n

/-- The chunk built for a bare text node, typed by its closest parent element
(`walkNode`'s `nodeType === 3` branch). -/
def chunkForText (parentTag : String) (t : List Char) : List Chunk :=
  let tt := trim t
  if tt = [] then []
  else
    match headingLevel parentTag with
    | some lv => [{ text := tt, type := .h, level := some lv }]
    | none =>
      if parentTag = "p" then [{ text := tt, type := .p }]
      else [{ text := tt, type := .other }]

/-- Serialized items of an ordered list: `$node.children('li')` with the
1-based index of each `li` child in the selection (blank items are skipped
but still consume their index). -/
def olItems : Nat → List Node → List (List Char)
  | _, [] => []
  | i, .text _ :: rest => olItems i rest
  | i, .elem tag cs :: rest =>
    if tag = "li" then
      let t := collapseTrim (textContents cs)
      if t = [] then olItems (i + 1) rest
      else (natDigits (i + 1) ++ '.' :: ' ' :: t) :: olItems (i + 1) rest
    else olItems i rest

/-- Serialized items of an unordered list: bullet-marked `li` children. -/
def ulItems : List Node → List (List Char)
  | [] => []
  | .text _ :: rest => ulItems rest
  | .elem tag cs :: rest =>
    if tag = "li" then
      let t := collapseTrim (textContents cs)
      if t = [] then ulItems rest
      else ('•' :: ' ' :: t) :: ulItems rest
    else ulItems rest

/-- JavaScript `array.join('\n')`. -/
def joinLines : List (List Char) → List Char
  | [] => []
  | [x] => x
  | x :: y :: rest => x ++ '\n' :: joinLines (y :: rest)

mutual

/-- The document-order DOM walk of `htmlToText` (`walkNode`), producing the
pre-merge chunk list. `parentTag` is the tag of the enclosing element, used
only to type bare text nodes. -/
def walkNode (parentTag : String) : Node → List Chunk
  | .text t => chunkForText parentTag t
  | .elem tag cs =>
    match headingLevel tag with
    | some lv =>
      let ft := collapseTrim (textContents cs)
      if ft = [] then [] else [{ text := ft, type := .h, level := some lv }]
    | none =>
      if tag = "p" then
        let ft := collapseTrim (textContents cs)
        if ft = [] then [] else [{ text := ft, type := .p }]
      else if tag = "ol" then
        let items := olItems 0 cs
        if items = [] then [] else [{ text := joinLines items, type := .other }]
      else if tag = "ul" then
        let items := ulItems cs
        if items = [] then [] else [{ text := joinLines items, type := .other }]
      else walkNodes tag cs

def walkNodes (parentTag : String) : List Node → List Chunk
  | [] => []
  | n :: ns => walkNode parentTag n ++ walkNodes parentTag ns

end

/-- The per-chunk normalization of the merge pass: keep embedded newlines
(list structure) and only trim, otherwise collapse all whitespace runs. -/
def cleanText (t : List Char) : List Char :=
  if t.contains '\n' then trim t else collapseTrim t

/-- One iteration of the merge loop of `htmlToText` (lines 130–166): `p`/`h`
chunks are appended as-is (with cleaned text); an `other` chunk is folded
into a trailing `other` chunk when one exists, joined by a newline when
either side contains one, else by a single space. -/
def mergeStep (acc : List Chunk) (c : Chunk) : List Chunk :=
  let ct := cleanText c.text
  if ct = [] then acc
  else if c.type = .p ∨ c.type = .h then acc ++ [{ c with text := ct }]
  else
    match acc.getLast? with
    | some lc =>
      if lc.type = .other then
        acc.dropLast ++
          [{ lc with
              text :=
                if c.text.contains '\n' || lc.text.contains '\n' then
                  lc.text ++ '\n' :: ct
                else lc.text ++ ' ' :: ct }]
      else acc ++ [{ c with text := ct }]
    | none => acc ++ [{ c with text := ct }]

/-- The whole merge pass. -/
def mergeChunks (l : List Chunk) : List Chunk := l.foldl mergeStep []

/-- The pre-merge chunk sequence of a document: walk the stripped tree from
the body, whose direct children have parent `body`. -/
def chunksOf (doc : List Node) : List Chunk := walkNodes "body" (stripNodes doc)

/-- The full chunker `htmlToText`: traversal, merge, and the fallback to one
`other` chunk holding the whole document's flattened text. -/
def htmlToText (doc : List Node) : List Chunk :=
  let body := stripNodes doc
  let merged := mergeChunks (walkNodes "body" body)
  if merged = [] then
    let allText := collapseTrim (textContents body)
    if allText = [] then [] else [{ text := allText, type := .other }]
  else merged

/- ### Specification-side description of the merge pass -/

/-- Modelled from the spec: the join of two neighbouring `other` texts — a
newline when either side already contains one, else a single space. -/
def joinTexts (a b : List Char) : List Char :=
  if a.contains '\n' || b.contains '\n' then a ++ '\n' :: b else a ++ ' ' :: b

/-- Modelled from the spec: merging a following `other` chunk into the run
headed by `c` (the run keeps the first chunk's fields). -/
def joinChunks (c d : Chunk) : Chunk := { c with text := joinTexts c.text d.text }

/-- The normalization, lifted to a chunk. -/
def cleanChunk (c : Chunk) : Chunk := { c with text := cleanText c.text }

/-- Modelled from the spec: `heading`/`paragraph` chunks are kept as-is and
never merged; each maximal run of consecutive `other` chunks collapses, left
to right, into a single chunk via `joinChunks`. -/
def mergeRuns : List Chunk → List Chunk
  | [] => []
  | [c] => [c]
  | c :: d :: rest =>
    if c.type = .other ∧ d.type = .other then mergeRuns (joinChunks c d :: rest)
    else c :: mergeRuns (d :: rest)
termination_by l => l.length

/-- Modelled from the spec: clean every chunk, then merge the `other` runs. -/
def mergeSpec (l : List Chunk) : List Chunk := mergeRuns (l.map cleanChunk)

/-- `mergeStep` on an already-cleaned chunk (the text invariants of the
traversal make the cleaning of `mergeStep` the identity on the join test,
see `mergeStep_eq_clean`). -/
def mergeStepClean (acc : List Chunk) (c : Chunk) : List Chunk :=
  if c.type = .p ∨ c.type = .h then acc ++ [c]
  else
    match acc.getLast? with
    | some lc =>
      if lc.type = .other then acc.dropLast ++ [joinChunks lc c]
      else acc ++ [c]
    | none => acc ++ [c]

/-- Text produced by the traversal: non-empty and trimmed. -/
def RawText (t : List Char) : Prop := Trimmed t ∧ t ≠ []

theorem cleanText_ne_nil {t : List Char} (h : RawText t) : cleanText t ≠ [] := by
  unfold cleanText
  by_cases hc : t.contains '\n' = true
  · rw [if_pos hc, h.1.trim_eq]; exact h.2
  · rw [if_neg hc]; exact collapseTrim_ne_nil h.1 h.2

theorem cleanText_contains_newline {t : List Char} (h : RawText t) :
    (cleanText t).contains '\n' = t.contains '\n' := by
  unfold cleanText
  by_cases hc : t.contains '\n' = true
  · rw [if_pos hc, h.1.trim_eq]
  · rw [if_neg hc, collapseTrim_not_contains_newline]
    simp only [Bool.not_eq_true] at hc
    rw [hc]


theorem type_ph_of_not_other {t : ChunkType} (h : t ≠ ChunkType.other) :
    t = ChunkType.p ∨ t = ChunkType.h := by
  cases t <;> simp_all

theorem not_ph_of_other {t : ChunkType} (h : t = ChunkType.other) :
    ¬(t = ChunkType.p ∨ t = ChunkType.h) := by
  cases t <;> simp_all

theorem mergeRuns_nil : mergeRuns [] = [] := by
  rw [mergeRuns.eq_def]

theorem mergeRuns_single (c : Chunk) : mergeRuns [c] = [c] := by
  rw [mergeRuns.eq_def]

theorem mergeRuns_cons2 (c d : Chunk) (rest : List Chunk) :
    mergeRuns (c :: d :: rest) =
      if c.type = ChunkType.other ∧ d.type = ChunkType.other then
        mergeRuns (joinChunks c d :: rest)
      else c :: mergeRuns (d :: rest) := by
  rw [mergeRuns.eq_def]

theorem mergeRuns_cons_of_not_other (d : Chunk) (rest : List Chunk)
    (hd : d.type ≠ ChunkType.other) :
    mergeRuns (d :: rest) = d :: mergeRuns rest := by
  cases rest with
  | nil => rw [mergeRuns_single, mergeRuns_nil]
  | cons e rest' => rw [mergeRuns_cons2, if_neg (by simp [hd])]

/-- Invariant used while running the cleaned fold: the accumulator never ends
in an `other` chunk. -/
def LastNotOther (acc : List Chunk) : Prop :=
  ∀ c, acc.getLast? = some c → c.type ≠ ChunkType.other

theorem lastNotOther_nil : LastNotOther [] := by
  intro c hc
  simp at hc

theorem lastNotOther_append {acc : List Chunk} {c : Chunk}
    (h : c.type ≠ ChunkType.other) : LastNotOther (acc ++ [c]) := by
  intro d hd
  simp only [List.getLast?_concat, Option.some.injEq] at hd
  subst hd
  exact h

theorem mergeStepClean_ph (acc : List Chunk) (c : Chunk)
    (h : c.type = ChunkType.p ∨ c.type = ChunkType.h) :
    mergeStepClean acc c = acc ++ [c] := by
  unfold mergeStepClean
  rw [if_pos h]

theorem mergeStepClean_other_of_lastNotOther (acc : List Chunk) (c : Chunk)
    (hacc : LastNotOther acc) (hc : c.type = ChunkType.other) :
    mergeStepClean acc c = acc ++ [c] := by
  unfold mergeStepClean
  rw [if_neg (not_ph_of_other hc)]
  cases hl : acc.getLast? with
  | none => rfl
  | some lc => simp only [if_neg (hacc lc hl)]

theorem mergeStepClean_merge (acc : List Chunk) (c d : Chunk)
    (hc : c.type = ChunkType.other) (hd : d.type = ChunkType.other) :
    mergeStepClean (acc ++ [c]) d = acc ++ [joinChunks c d] := by
  unfold mergeStepClean
  rw [if_neg (not_ph_of_other hd), List.getLast?_concat]
  simp only [if_pos hc, List.dropLast_concat]

/-- On raw traversal text, the source's `mergeStep` coincides with
`mergeStepClean` applied to the cleaned chunk. -/
theorem mergeStep_eq_clean (acc : List Chunk) (c : Chunk) (h : RawText c.text) :
    mergeStep acc c = mergeStepClean acc (cleanChunk c) := by
  have hne : cleanText c.text ≠ [] := cleanText_ne_nil h
  have hnl : (cleanText c.text).contains '\n' = c.text.contains '\n' :=
    cleanText_contains_newline h
  simp only [mergeStep, mergeStepClean, cleanChunk, if_neg hne]
  by_cases hpt : c.type = ChunkType.p ∨ c.type = ChunkType.h
  · rw [if_pos hpt, if_pos hpt]
  · rw [if_neg hpt, if_neg hpt]
    cases hl : acc.getLast? with
    | none => rfl
    | some lc =>
      by_cases hlo : lc.type = ChunkType.other
      · simp only [if_pos hlo, joinChunks, joinTexts, hnl]
        rw [Bool.or_comm]
      · simp only [if_neg hlo]

/-- The fold with `mergeStepClean` from a well-formed accumulator is exactly
the spec-side maximal-run merge. -/
theorem foldl_mergeStepClean_eq (m : List Chunk) :
    (∀ acc, LastNotOther acc →
      List.foldl mergeStepClean acc m = acc ++ mergeRuns m) ∧
    (∀ acc c, LastNotOther acc → c.type = ChunkType.other →
      List.foldl mergeStepClean (acc ++ [c]) m = acc ++ mergeRuns (c :: m)) := by
  induction m with
  | nil =>
    exact ⟨fun acc _ => by simp [mergeRuns_nil],
      fun acc c _ _ => by simp [mergeRuns_single]⟩
  | cons d rest ih =>
    refine ⟨?_, ?_⟩
    · intro acc hacc
      by_cases hd : d.type = ChunkType.other
      · rw [List.foldl_cons, mergeStepClean_other_of_lastNotOther acc d hacc hd]
        exact ih.2 acc d hacc hd
      · rw [List.foldl_cons, mergeStepClean_ph acc d (type_ph_of_not_other hd),
          ih.1 (acc ++ [d]) (lastNotOther_append hd),
          mergeRuns_cons_of_not_other d rest hd]
        simp
    · intro acc c hacc hc
      by_cases hd : d.type = ChunkType.other
      · rw [List.foldl_cons, mergeStepClean_merge acc c d hc hd,
          ih.2 acc (joinChunks c d) hacc
            (show (joinChunks c d).type = ChunkType.other from hc),
          mergeRuns_cons2 c d rest, if_pos ⟨hc, hd⟩]
      · rw [List.foldl_cons, mergeStepClean_ph (acc ++ [c]) d (type_ph_of_not_other hd),
          ih.1 ((acc ++ [c]) ++ [d]) (lastNotOther_append hd),
          mergeRuns_cons2 c d rest, if_neg (by simp [hd]),
          mergeRuns_cons_of_not_other d rest hd]
        simp

/-- On any chunk list whose texts satisfy the traversal invariants, the
source merge pass equals the spec-side description. -/
theorem mergeChunks_eq_mergeSpec (l : List Chunk)
    (h : ∀ c ∈ l, RawText c.text) : mergeChunks l = mergeSpec l := by
  have hfold : ∀ (m : List Chunk), (∀ c ∈ m, RawText c.text) → ∀ acc,
      List.foldl mergeStep acc m = List.foldl mergeStepClean acc (m.map cleanChunk) := by
    intro m
    induction m with
    | nil => intro _ acc; rfl
    | cons c rest ih =>
      intro hm acc
      rw [List.map_cons, List.foldl_cons, List.foldl_cons,
        mergeStep_eq_clean acc c (hm c (List.mem_cons_self _ _))]
      exact ih (fun d hd => hm d (List.mem_cons_of_mem _ hd)) _
  unfold mergeChunks mergeSpec
  rw [hfold l h []]
  simpa using (foldl_mergeStepClean_eq (l.map cleanChunk)).1 [] lastNotOther_nil

/- ### Traversal invariants -/

/-- The invariant of every chunk the traversal emits: trimmed non-empty
text, a level in 1..6 exactly on headings. -/
def RawChunk (c : Chunk) : Prop :=
  RawText c.text ∧
  (c.type = ChunkType.h → ∃ lv, c.level = some lv ∧ 1 ≤ lv ∧ lv ≤ 6) ∧
  (c.type ≠ ChunkType.h → c.level = none)

theorem headingLevel_range {tag : String} {lv : Nat} (h : headingLevel tag = some lv) :
    1 ≤ lv ∧ lv ≤ 6 := by
  unfold headingLevel at h
  split_ifs at h <;> simp_all <;> omega

theorem digit_not_ws {k : Nat} (h : k < 10) : isWs (digitChar k) = false := by
  interval_cases k <;> decide

theorem natDigitsAux_head :
    ∀ (fuel n : Nat), n < fuel →
      ∃ c rest, natDigitsAux fuel n = c :: rest ∧ isWs c = false := by
  intro fuel
  induction fuel with
  | zero => intro n h; omega
  | succ f ih =>
    intro n h
    by_cases h10 : n < 10
    · exact ⟨digitChar n, [], by simp [natDigitsAux, h10], digit_not_ws h10⟩
    · have hlt : n / 10 < n := Nat.div_lt_self (by omega) (by omega)
      obtain ⟨c, rest, heq, hc⟩ := ih (n / 10) (by omega)
      refine ⟨c, rest ++ [digitChar (n % 10)], ?_, hc⟩
      simp [natDigitsAux, h10, heq]

theorem natDigits_head (n : Nat) :
    ∃ c rest, natDigits n = c :: rest ∧ isWs c = false :=
  natDigitsAux_head (n + 1) n (by omega)

/-- Prepending a non-whitespace marker (plus arbitrary middle characters) to
a trimmed non-empty string yields a trimmed non-empty string. -/
theorem trimmed_mark_append {m0 : Char} {mid t : List Char}
    (hm : isWs m0 = false) (ht : Trimmed t) (hn : t ≠ []) :
    Trimmed (m0 :: (mid ++ t)) := by
  obtain ⟨d, r, hrev, hd⟩ := trimmed_reverse_cons ht hn
  constructor
  · exact dropWhile_cons_of_not _ _ _ (by simp [hm])
  · have hre : (m0 :: (mid ++ t)).reverse = d :: (r ++ (mid.reverse ++ [m0])) := by
      simp [hrev]
    rw [hre]
    exact dropWhile_cons_of_not _ _ _ (by simp [hd])

theorem olItems_mem :
    ∀ (cs : List Node) (i : Nat) (x : List Char), x ∈ olItems i cs →
      Trimmed x ∧ x ≠ [] := by
  intro cs
  induction cs with
  | nil => intro i x hx; simp [olItems] at hx
  | cons n rest ih =>
    intro i x hx
    cases n with
    | text t =>
      simp only [olItems] at hx
      exact ih i x hx
    | elem tag cs' =>
      by_cases htag : tag = "li"
      · simp only [olItems, if_pos htag] at hx
        by_cases hemp : collapseTrim (textContents cs') = []
        · rw [if_pos hemp] at hx
          exact ih (i + 1) x hx
        · rw [if_neg hemp] at hx
          rcases List.mem_cons.mp hx with hx | hx
          · subst hx
            obtain ⟨c, ds, hnd, hc⟩ := natDigits_head (i + 1)
            have htr : Trimmed (collapseTrim (textContents cs')) := trimmed_trim _
            constructor
            · rw [hnd, show ((c :: ds) ++ '.' :: ' ' :: collapseTrim (textContents cs'))
                  = c :: ((ds ++ ['.', ' ']) ++ collapseTrim (textContents cs')) by simp]
              exact trimmed_mark_append hc htr hemp
            · rw [hnd]; simp
          · exact ih (i + 1) x hx
      · simp only [olItems, if_neg htag] at hx
        exact ih i x hx

theorem ulItems_mem :
    ∀ (cs : List Node) (x : List Char), x ∈ ulItems cs → Trimmed x ∧ x ≠ [] := by
  intro cs
  induction cs with
  | nil => intro x hx; simp [ulItems] at hx
  | cons n rest ih =>
    intro x hx
    cases n with
    | text t =>
      simp only [ulItems] at hx
      exact ih x hx
    | elem tag cs' =>
      by_cases htag : tag = "li"
      · simp only [ulItems, if_pos htag] at hx
        by_cases hemp : collapseTrim (textContents cs') = []
        · rw [if_pos hemp] at hx
          exact ih x hx
        · rw [if_neg hemp] at hx
          rcases List.mem_cons.mp hx with hx | hx
          · subst hx
            have htr : Trimmed (collapseTrim (textContents cs')) := trimmed_trim _
            constructor
            · rw [show ('•' :: ' ' :: collapseTrim (textContents cs'))
                  = '•' :: ([' '] ++ collapseTrim (textContents cs')) by simp]
              exact trimmed_mark_append (by decide) htr hemp
            · simp
          · exact ih x hx
      · simp only [ulItems, if_neg htag] at hx
        exact ih x hx

theorem joinLines_inv :
    ∀ (items : List (List Char)), (∀ x ∈ items, Trimmed x ∧ x ≠ []) → items ≠ [] →
      Trimmed (joinLines items) ∧ joinLines items ≠ [] := by
  intro items
  induction items with
  | nil => intro _ h; exact absurd rfl h
  | cons x rest ih =>
    intro hall _
    cases rest with
    | nil =>
      have hx := hall x (by simp)
      exact ⟨by rw [show joinLines [x] = x from rfl]; exact hx.1,
        by rw [show joinLines [x] = x from rfl]; exact hx.2⟩
    | cons y rest' =>
      have hx := hall x (by simp)
      have hrec := ih (fun z hz => hall z (List.mem_cons_of_mem _ hz)) (by simp)
      rw [show joinLines (x :: y :: rest') = x ++ '\n' :: joinLines (y :: rest') from rfl]
      exact ⟨trimmed_join _ hx.1 hrec.1 hx.2 hrec.2, join_ne_nil _ hx.2⟩

theorem mem_walkNodes {c : Chunk} :
    ∀ (ns : List Node) (par : String), c ∈ walkNodes par ns →
      ∃ n ∈ ns, c ∈ walkNode par n := by
  intro ns
  induction ns with
  | nil => intro par h; simp [walkNodes] at h
  | cons n rest ih =>
    intro par h
    rw [show walkNodes par (n :: rest) = walkNode par n ++ walkNodes par rest from rfl] at h
    rcases List.mem_append.mp h with h | h
    · exact ⟨n, List.mem_cons_self _ _, h⟩
    · obtain ⟨m, hm, hc⟩ := ih par h
      exact ⟨m, List.mem_cons_of_mem _ hm, hc⟩

theorem chunkForText_inv {par : String} {t : List Char} {c : Chunk}
    (h : c ∈ chunkForText par t) : RawChunk c := by
  unfold chunkForText at h
  by_cases hemp : trim t = []
  · simp [hemp] at h
  · rw [if_neg hemp] at h
    cases hl : headingLevel par with
    | some lv =>
      rw [hl] at h
      simp only [List.mem_singleton] at h
      subst h
      refine ⟨⟨trimmed_trim t, hemp⟩, ?_, ?_⟩
      · intro _
        exact ⟨lv, rfl, headingLevel_range hl⟩
      · intro hcon
        exact absurd rfl hcon
    | none =>
      rw [hl] at h
      by_cases hp : par = "p"
      · rw [if_pos hp] at h
        simp only [List.mem_singleton] at h
        subst h
        exact ⟨⟨trimmed_trim t, hemp⟩, fun hcon => by simp at hcon, fun _ => rfl⟩
      · rw [if_neg hp] at h
        simp only [List.mem_singleton] at h
        subst h
        exact ⟨⟨trimmed_trim t, hemp⟩, fun hcon => by simp at hcon, fun _ => rfl⟩

/-- Every chunk emitted by the walk satisfies the traversal invariant
(fuel-indexed strong induction over the tree size). -/
theorem walkNode_inv_aux :
    ∀ (k : Nat) (n : Node), sizeOf n ≤ k → ∀ (par : String) (c : Chunk),
      c ∈ walkNode par n → RawChunk c := by
  intro k
  induction k with
  | zero =>
    intro n hs
    exfalso
    cases n <;> simp_arith at hs
  | succ k ih =>
    intro n hs par c hc
    cases n with
    | text t => exact chunkForText_inv hc
    | elem tag cs =>
      rw [show walkNode par (.elem tag cs) =
        (match headingLevel tag with
        | some lv =>
          let ft := collapseTrim (textContents cs)
          if ft = [] then [] else [{ text := ft, type := .h, level := some lv }]
        | none =>
          if tag = "p" then
            let ft := collapseTrim (textContents cs)
            if ft = [] then [] else [{ text := ft, type := .p }]
          else if tag = "ol" then
            let items := olItems 0 cs
            if items = [] then [] else [{ text := joinLines items, type := .other }]
          else if tag = "ul" then
            let items := ulItems cs
            if items = [] then [] else [{ text := joinLines items, type := .other }]
          else walkNodes tag cs) from rfl] at hc
      cases hl : headingLevel tag with
      | some lv =>
        rw [hl] at hc
        simp only at hc
        by_cases hemp : collapseTrim (textContents cs) = []
        · simp [hemp] at hc
        · rw [if_neg hemp] at hc
          simp only [List.mem_singleton] at hc
          subst hc
          exact ⟨⟨trimmed_trim _, hemp⟩,
            fun _ => ⟨lv, rfl, headingLevel_range hl⟩,
            fun hcon => absurd rfl hcon⟩
      | none =>
        rw [hl] at hc
        simp only at hc
        by_cases hp : tag = "p"
        · rw [if_pos hp] at hc
          by_cases hemp : collapseTrim (textContents cs) = []
          · simp [hemp] at hc
          · rw [if_neg hemp] at hc
            simp only [List.mem_singleton] at hc
            subst hc
            exact ⟨⟨trimmed_trim _, hemp⟩, fun hcon => by simp at hcon, fun _ => rfl⟩
        · rw [if_neg hp] at hc
          by_cases hol : tag = "ol"
          · rw [if_pos hol] at hc
            by_cases hemp : olItems 0 cs = []
            · simp [hemp] at hc
            · rw [if_neg hemp] at hc
              simp only [List.mem_singleton] at hc
              subst hc
              have hj := joinLines_inv (olItems 0 cs) (fun x hx => olItems_mem cs 0 x hx) hemp
              exact ⟨⟨hj.1, hj.2⟩, fun hcon => by simp at hcon, fun _ => rfl⟩
          · rw [if_neg hol] at hc
            by_cases hul : tag = "ul"
            · rw [if_pos hul] at hc
              by_cases hemp : ulItems cs = []
              · simp [hemp] at hc
              · rw [if_neg hemp] at hc
                simp only [List.mem_singleton] at hc
                subst hc
                have hj := joinLines_inv (ulItems cs) (fun x hx => ulItems_mem cs x hx) hemp
                exact ⟨⟨hj.1, hj.2⟩, fun hcon => by simp at hcon, fun _ => rfl⟩
            · rw [if_neg hul] at hc
              obtain ⟨m, hm, hcm⟩ := mem_walkNodes cs tag hc
              have hsm : sizeOf m < sizeOf cs := List.sizeOf_lt_of_mem hm
              have hse : sizeOf (Node.elem tag cs) = 1 + sizeOf tag + sizeOf cs := by
                simp
              exact ih m (by omega) tag c hcm

theorem walkNode_inv {n : Node} {par : String} {c : Chunk}
    (hc : c ∈ walkNode par n) : RawChunk c :=
  walkNode_inv_aux (sizeOf n) n (Nat.le_refl _) par c hc

/-- Every pre-merge chunk of a document satisfies the traversal invariant. -/
theorem chunksOf_inv (doc : List Node) (c : Chunk) (hc : c ∈ chunksOf doc) :
    RawChunk c := by
  obtain ⟨n, _, hcn⟩ := mem_walkNodes _ _ hc
  exact walkNode_inv hcn

/- ### Output invariants of the chunker -/

/-- The invariant of every chunk `htmlToText` returns: trimmed, non-empty,
collapsed unless it carries embedded line breaks, with `level` present
exactly on headings and then in 1..6. -/
def OutChunk (c : Chunk) : Prop :=
  Trimmed c.text ∧ c.text ≠ [] ∧
  (c.text.contains '\n' = false → Collapsed c.text) ∧
  (c.type = ChunkType.h → ∃ lv, c.level = some lv ∧ 1 ≤ lv ∧ lv ≤ 6) ∧
  (c.type ≠ ChunkType.h → c.level = none)

theorem cleanChunk_out {c : Chunk} (h : RawChunk c) : OutChunk (cleanChunk c) := by
  obtain ⟨⟨htr, hne⟩, hlh, hln⟩ := h
  by_cases hnl : c.text.contains '\n' = true
  · refine ⟨?_, ?_, ?_, hlh, hln⟩
    · show Trimmed (cleanText c.text)
      rw [show cleanText c.text = trim c.text from if_pos hnl, htr.trim_eq]
      exact htr
    · show cleanText c.text ≠ []
      rw [show cleanText c.text = trim c.text from if_pos hnl, htr.trim_eq]
      exact hne
    · intro hcon
      exfalso
      have hcon2 : (cleanText c.text).contains '\n' = false := hcon
      rw [show cleanText c.text = trim c.text from if_pos hnl, htr.trim_eq, hnl] at hcon2
      simp at hcon2
  · refine ⟨?_, ?_, ?_, hlh, hln⟩
    · show Trimmed (cleanText c.text)
      rw [show cleanText c.text = collapseTrim c.text from if_neg hnl]
      exact trimmed_trim _
    · show cleanText c.text ≠ []
      rw [show cleanText c.text = collapseTrim c.text from if_neg hnl]
      exact collapseTrim_ne_nil htr hne
    · intro _
      show Collapsed (cleanText c.text)
      rw [show cleanText c.text = collapseTrim c.text from if_neg hnl]
      exact collapsed_collapseTrim _

theorem joinChunks_out {c d : Chunk} (hc : OutChunk c) (hd : OutChunk d)
    (hco : c.type = ChunkType.other) : OutChunk (joinChunks c d) := by
  obtain ⟨hct, hcn, hcc, _, hcl⟩ := hc
  obtain ⟨hdt, hdn, hdc, _, _⟩ := hd
  have hty : (joinChunks c d).type = c.type := rfl
  have hlv : (joinChunks c d).level = c.level := rfl
  refine ⟨?_, ?_, ?_, ?_, ?_⟩
  · show Trimmed (joinTexts c.text d.text)
    unfold joinTexts
    by_cases hb : (c.text.contains '\n' || d.text.contains '\n') = true
    · rw [if_pos hb]; exact trimmed_join _ hct hdt hcn hdn
    · rw [if_neg hb]; exact trimmed_join _ hct hdt hcn hdn
  · show joinTexts c.text d.text ≠ []
    unfold joinTexts
    by_cases hb : (c.text.contains '\n' || d.text.contains '\n') = true
    · rw [if_pos hb]; exact join_ne_nil _ hcn
    · rw [if_neg hb]; exact join_ne_nil _ hcn
  · intro hnl
    show Collapsed (joinTexts c.text d.text)
    unfold joinTexts
    by_cases hb : (c.text.contains '\n' || d.text.contains '\n') = true
    · -- then the join carries a newline, contradicting hnl
      exfalso
      have hnl2 : (joinTexts c.text d.text).contains '\n' = false := hnl
      have hmem : '\n' ∈ joinTexts c.text d.text := by
        unfold joinTexts
        rw [if_pos hb]
        simp
      have hcontains := (contains_iff_mem _ _).mpr hmem
      rw [hcontains] at hnl2
      simp at hnl2
    · rw [if_neg hb]
      simp only [Bool.or_eq_true, not_or] at hb
      have h1 : c.text.contains '\n' = false := by
        rcases hb with ⟨h1, _⟩
        revert h1
        cases c.text.contains '\n' <;> simp
      have h2 : d.text.contains '\n' = false := by
        rcases hb with ⟨_, h2⟩
        revert h2
        cases d.text.contains '\n' <;> simp
      exact collapsed_space_join (hcc h1) (hdc h2) hct hdt hcn hdn
  · intro hcon
    rw [hty, hco] at hcon
    cases hcon
  · intro _
    rw [hlv]
    exact hcl (by rw [hco]; intro hcon; cases hcon)

theorem mergeRuns_out :
    ∀ (k : Nat) (m : List Chunk), m.length ≤ k → (∀ c ∈ m, OutChunk c) →
      ∀ c ∈ mergeRuns m, OutChunk c := by
  intro k
  induction k with
  | zero =>
    intro m hk hm c hc
    have : m = [] := List.length_eq_zero.mp (Nat.le_zero.mp hk)
    subst this
    rw [mergeRuns_nil] at hc
    simp at hc
  | succ k ih =>
    intro m hk hm c hc
    cases m with
    | nil =>
      rw [mergeRuns_nil] at hc
      simp at hc
    | cons d rest =>
      cases rest with
      | nil =>
        rw [mergeRuns_single] at hc
        simp only [List.mem_singleton] at hc
        subst hc
        exact hm c (by simp)
      | cons e rest' =>
        by_cases hde : d.type = ChunkType.other ∧ e.type = ChunkType.other
        · rw [mergeRuns_cons2, if_pos hde] at hc
          refine ih (joinChunks d e :: rest') (by simp at hk ⊢; omega) ?_ c hc
          intro x hx
          rcases List.mem_cons.mp hx with hx | hx
          · subst hx
            exact joinChunks_out (hm d (by simp)) (hm e (by simp)) hde.1
          · exact hm x (by simp [hx])
        · rw [mergeRuns_cons2, if_neg hde] at hc
          rcases List.mem_cons.mp hc with hc | hc
          · subst hc
            exact hm c (by simp)
          · refine ih (e :: rest') (by simp at hk ⊢; omega) ?_ c hc
            intro x hx
            exact hm x (List.mem_cons_of_mem _ hx)

theorem htmlToText_out (doc : List Node) (c : Chunk) (hc : c ∈ htmlToText doc) :
    OutChunk c := by
  unfold htmlToText at hc
  by_cases hm : mergeChunks (walkNodes "body" (stripNodes doc)) = []
  · rw [if_pos hm] at hc
    by_cases ha : collapseTrim (textContents (stripNodes doc)) = []
    · simp [ha] at hc
    · rw [if_neg ha] at hc
      simp only [List.mem_singleton] at hc
      subst hc
      exact ⟨trimmed_trim _, ha,
        fun _ => collapsed_collapseTrim _,
        fun hcon => by simp at hcon, fun _ => rfl⟩
  · rw [if_neg hm] at hc
    have heq : mergeChunks (walkNodes "body" (stripNodes doc))
        = mergeSpec (chunksOf doc) := by
      rw [show walkNodes "body" (stripNodes doc) = chunksOf doc from rfl]
      exact mergeChunks_eq_mergeSpec _ (fun x hx => (chunksOf_inv doc x hx).1)
    rw [heq] at hc
    unfold mergeSpec at hc
    refine mergeRuns_out ((chunksOf doc).map cleanChunk).length _ (Nat.le_refl _) ?_ c hc
    intro x hx
    obtain ⟨y, hy, rfl⟩ := List.mem_map.mp hx
    exact cleanChunk_out (chunksOf_inv doc y hy)

/- ### No two adjacent `other` chunks -/

/-- The adjacency relation of claim C10: not both sides of type `other`. -/
def NoTwoOther (a b : Chunk) : Prop :=
  ¬(a.type = ChunkType.other ∧ b.type = ChunkType.other)

theorem mergeRuns_head_type :
    ∀ (k : Nat) (d : Chunk) (rest : List Chunk), rest.length ≤ k →
      ∃ e rest2, mergeRuns (d :: rest) = e :: rest2 ∧ e.type = d.type := by
  intro k
  induction k with
  | zero =>
    intro d rest h
    have : rest = [] := List.length_eq_zero.mp (Nat.le_zero.mp h)
    subst this
    exact ⟨d, [], mergeRuns_single d, rfl⟩
  | succ k ih =>
    intro d rest h
    cases rest with
    | nil => exact ⟨d, [], mergeRuns_single d, rfl⟩
    | cons e r =>
      by_cases hde : d.type = ChunkType.other ∧ e.type = ChunkType.other
      · rw [mergeRuns_cons2, if_pos hde]
        obtain ⟨f, rest2, heq, hty⟩ :=
          ih (joinChunks d e) r (by simp at h ⊢; omega)
        exact ⟨f, rest2, heq, hty⟩
      · rw [mergeRuns_cons2, if_neg hde]
        exact ⟨d, _, rfl, rfl⟩

theorem mergeRuns_chain :
    ∀ (k : Nat) (m : List Chunk), m.length ≤ k →
      (mergeRuns m).Chain' NoTwoOther := by
  intro k
  induction k with
  | zero =>
    intro m h
    have : m = [] := List.length_eq_zero.mp (Nat.le_zero.mp h)
    subst this
    rw [mergeRuns_nil]
    simp
  | succ k ih =>
    intro m h
    cases m with
    | nil => rw [mergeRuns_nil]; simp
    | cons d rest =>
      cases rest with
      | nil => rw [mergeRuns_single]; simp
      | cons e r =>
        by_cases hde : d.type = ChunkType.other ∧ e.type = ChunkType.other
        · rw [mergeRuns_cons2, if_pos hde]
          exact ih (joinChunks d e :: r) (by simp at h ⊢; omega)
        · rw [mergeRuns_cons2, if_neg hde]
          rw [List.chain'_cons']
          refine ⟨?_, ih (e :: r) (by simp at h ⊢; omega)⟩
          intro y hy
          obtain ⟨f, rest2, heq, hty⟩ := mergeRuns_head_type r.length e r (Nat.le_refl _)
          rw [heq] at hy
          simp only [List.head?_cons, Option.mem_def, Option.some.injEq] at hy
          subst hy
          intro hcon
          exact hde ⟨hcon.1, by rw [← hty]; exact hcon.2⟩

/- ### Claim theorems for the chunker -/

/-- C1. For every parsed markup tree, `htmlToText` is a total function (it
never raises: totality of this Lean definition is the embedded form of that
guarantee) returning the merged traversal sequence when it is non-empty, and
otherwise falling back to a single `other` segment holding the whole
document's flattened, whitespace-normalized text — or to the empty sequence
when that text is blank. -/
theorem c1_chunker_total_with_fallback (doc : List Node) :
    (mergeChunks (chunksOf doc) ≠ [] ∧
      htmlToText doc = mergeChunks (chunksOf doc)) ∨
    (mergeChunks (chunksOf doc) = [] ∧
      collapseTrim (textContents (stripNodes doc)) = [] ∧
      htmlToText doc = []) ∨
    (mergeChunks (chunksOf doc) = [] ∧
      collapseTrim (textContents (stripNodes doc)) ≠ [] ∧
      htmlToText doc =
        [{ text := collapseTrim (textContents (stripNodes doc)),
           type := ChunkType.other }]) := by
  unfold htmlToText chunksOf
  by_cases h1 : mergeChunks (walkNodes "body" (stripNodes doc)) = []
  · by_cases h2 : collapseTrim (textContents (stripNodes doc)) = []
    · right; left
      exact ⟨h1, h2, by rw [if_pos h1, if_pos h2]⟩
    · right; right
      exact ⟨h1, h2, by rw [if_pos h1, if_neg h2]⟩
  · left
    exact ⟨h1, by rw [if_neg h1]⟩

/-- C2. For every input document, the merge pass applied to the traversal
output is exactly the spec-side description `mergeSpec`: heading/paragraph
chunks are never merged with neighbours, and each maximal run of consecutive
`other` chunks is folded left-to-right into one chunk, joined by a newline
when either side of the join contains one and by a single space otherwise. -/
theorem c2_merge_follows_spec (doc : List Node) :
    mergeChunks (chunksOf doc) = mergeSpec (chunksOf doc) :=
  mergeChunks_eq_mergeSpec _ (fun c hc => (chunksOf_inv doc c hc).1)

/-- C3. Every segment returned by `htmlToText` satisfies the segment
invariant: `level` is present iff the segment is a heading (and then lies in
1..6), and the text is non-empty after normalization — trimmed, and with all
inner whitespace collapsed to single spaces unless the text carries embedded
line breaks (list-style structure). -/
theorem c3_segment_invariant (doc : List Node) (c : Chunk)
    (hc : c ∈ htmlToText doc) :
    (c.level.isSome ↔ c.type = ChunkType.h) ∧
    (∀ lv, c.level = some lv → 1 ≤ lv ∧ lv ≤ 6) ∧
    c.text ≠ [] ∧ Trimmed c.text ∧
    (c.text.contains '\n' = false → Collapsed c.text) := by
  obtain ⟨htr, hne, hcol, hlh, hln⟩ := htmlToText_out doc c hc
  refine ⟨?_, ?_, hne, htr, hcol⟩
  · constructor
    · intro hsome
      by_contra hcon
      rw [hln hcon] at hsome
      simp at hsome
    · intro hh
      obtain ⟨lv, hlv, _⟩ := hlh hh
      rw [hlv]
      rfl
  · intro lv hlv
    by_cases hh : c.type = ChunkType.h
    · obtain ⟨lv2, hlv2, hrange⟩ := hlh hh
      rw [hlv] at hlv2
      cases hlv2
      exact hrange
    · rw [hln hh] at hlv
      cases hlv

/-- Witness for C3 at a concrete document. -/
theorem c3_segment_invariant_witness :
    (({ text := "hi".toList, type := ChunkType.p } : Chunk).level.isSome ↔
      ({ text := "hi".toList, type := ChunkType.p } : Chunk).type = ChunkType.h) ∧
    (∀ lv, ({ text := "hi".toList, type := ChunkType.p } : Chunk).level = some lv →
      1 ≤ lv ∧ lv ≤ 6) ∧
    ({ text := "hi".toList, type := ChunkType.p } : Chunk).text ≠ [] ∧
    Trimmed ({ text := "hi".toList, type := ChunkType.p } : Chunk).text ∧
    (({ text := "hi".toList, type := ChunkType.p } : Chunk).text.contains '\n' = false →
      Collapsed ({ text := "hi".toList, type := ChunkType.p } : Chunk).text) :=
  c3_segment_invariant [Node.elem "p" [Node.text "hi".toList]]
    { text := "hi".toList, type := ChunkType.p } (by decide)

/-- C10. The chunker's output never contains two adjacent segments that are
both of type `other`: every `other` segment either touches a heading or
paragraph segment or sits at the boundary of the sequence. -/
theorem c10_no_adjacent_other (doc : List Node) :
    (htmlToText doc).Chain' NoTwoOther := by
  unfold htmlToText
  by_cases h1 : mergeChunks (walkNodes "body" (stripNodes doc)) = []
  · rw [if_pos h1]
    by_cases h2 : collapseTrim (textContents (stripNodes doc)) = []
    · rw [if_pos h2]; simp
    · rw [if_neg h2]; simp
  · rw [if_neg h1]
    have heq : mergeChunks (walkNodes "body" (stripNodes doc))
        = mergeSpec (chunksOf doc) := by
      rw [show walkNodes "body" (stripNodes doc) = chunksOf doc from rfl]
      exact mergeChunks_eq_mergeSpec _ (fun x hx => (chunksOf_inv doc x hx).1)
    rw [heq]
    exact mergeRuns_chain _ _ (Nat.le_refl _)

/- ### Stage 5: audio generation (src/url-processor/server.js) -/

/-- The silence configuration `AUDIO_CONFIG` (paragraphSilence,
titleSilenceBefore, titleSilenceAfter); durations are modelled as rationals,
which carries the `Math.max` comparisons exactly. -/
structure AudioConfig where
  paragraphSilence : ℚ
  titleSilenceBefore : ℚ
  titleSilenceAfter : ℚ
deriving DecidableEq, Repr

/-- Silence-gap selection between two adjacent surviving chunks
(`concatenateAudioWithSilence`, lines 1113–1121): start from
`paragraphSilence`; a heading on the left switches to `titleSilenceAfter`; a
heading on the right widens to at least `titleSilenceBefore`. The `Option`
mirrors the `chunkMetadata[i]?.type` accesses. -/
def gapDuration (cfg : AudioConfig) (cur next : Option ChunkType) : ℚ :=
  let d := cfg.paragraphSilence
  let d2 := if cur = some ChunkType.h then cfg.titleSilenceAfter else d
  if next = some ChunkType.h then max d2 cfg.titleSilenceBefore else d2

/-- The environment a Stage-5 run executes in: the initial filesystem state
(final artifact, per-chunk cache, both keyed by chunk text — the real store
keys by a hash of the text), the synthesis oracle, and the outcome of each
kind of external subprocess call. -/
structure Stage5Env where
  cfg : AudioConfig
  finalExists : Bool
  cachedChunk : List Char → Bool
  synthOk : List Char → Bool
  ffmpegOk : Bool
  silenceOk : Bool
  concatOk : Bool

inductive ConcatError where
  | noChunks
  | ffmpegMissing
  | silenceFailed
  | concatFailed
deriving DecidableEq, Repr

inductive Stage5Error where
  | allChunksFailed
  | noValidChunks
  | concatErr : ConcatError → Stage5Error
deriving DecidableEq, Repr

/-- One line of the ffmpeg concat manifest: a chunk audio file (identified by
its chunk text) or a silence clip of a given duration. -/
inductive ManifestEntry where
  | audio : List Char → ManifestEntry
  | silence : ℚ → ManifestEntry
deriving DecidableEq, Repr

/-- Result and observable trace of one `concatenateAudioWithSilence` call. -/
structure ConcatResult where
  ok : Bool
  error : Option ConcatError
  subprocCalls : Nat
  track : List ManifestEntry
  finalWritten : Bool
  silenceFiles : List ℚ
  manifestWritten : Bool
  tempLeft : Nat
deriving DecidableEq, Repr

/-- The durations of the silence gaps at each junction of the surviving
sequence, in order. -/
def junctionDurations (cfg : AudioConfig) : List Chunk → List ℚ
  | [] => []
  | [_] => []
  | c :: d :: rest =>
    gapDuration cfg (some c.type) (some d.type) :: junctionDurations cfg (d :: rest)

/-- The silence-file cache keyed by duration (`silenceFiles` map): one file
per distinct duration, in first-use order. -/
def distinctDurations (l : List ℚ) : List ℚ :=
  l.foldl (fun acc d => if d ∈ acc then acc else acc ++ [d]) []

/-- The content of the ffmpeg concat manifest: the surviving chunk files in
order, a silence clip between every adjacent pair. -/
def buildManifest (cfg : AudioConfig) : List Chunk → List ManifestEntry
  | [] => []
  | [c] => [.audio c.text]
  | c :: d :: rest =>
    .audio c.text :: .silence (gapDuration cfg (some c.type) (some d.type)) ::
      buildManifest cfg (d :: rest)

/-- The model of `concatenateAudioWithSilence` (lines 1049–1159). The
single-file fast path copies without any subprocess; otherwise ffmpeg is
probed first, silence clips are generated through the per-duration cache,
the manifest is written, ffmpeg concatenates, and the temp files are removed
only on the success path (the `catch` rethrows before the cleanup code). -/
def concatenateAudioWithSilence (env : Stage5Env) (files : List Chunk) : ConcatResult :=
  if files = [] then
    { ok := false, error := some .noChunks, subprocCalls := 0, track := [],
      finalWritten := false, silenceFiles := [], manifestWritten := false, tempLeft := 0 }
  else if files.length = 1 then
    { ok := true, error := none, subprocCalls := 0, track := buildManifest env.cfg files,
      finalWritten := true, silenceFiles := [], manifestWritten := false, tempLeft := 0 }
  else if env.ffmpegOk = false then
    { ok := false, error := some .ffmpegMissing, subprocCalls := 1, track := [],
      finalWritten := false, silenceFiles := [], manifestWritten := false, tempLeft := 0 }
  else if env.silenceOk = false then
    { ok := false, error := some .silenceFailed, subprocCalls := 2, track := [],
      finalWritten := false, silenceFiles := [], manifestWritten := false, tempLeft := 0 }
  else if env.concatOk = false then
    { ok := false, error := some .concatFailed,
      subprocCalls := 1 + (distinctDurations (junctionDurations env.cfg files)).length + 1,
      track := [], finalWritten := false,
      silenceFiles := distinctDurations (junctionDurations env.cfg files),
      manifestWritten := true,
      tempLeft := (distinctDurations (junctionDurations env.cfg files)).length + 1 }
  else
    { ok := true, error := none,
      subprocCalls := 1 + (distinctDurations (junctionDurations env.cfg files)).length + 1,
      track := buildManifest env.cfg files, finalWritten := true,
      silenceFiles := distinctDurations (junctionDurations env.cfg files),
      manifestWritten := true, tempLeft := 0 }

/-- State of the per-chunk synthesis loop. -/
structure LoopState where
  synthCalls : Nat
  successful : Nat
  failed : Nat
  files : List Chunk
deriving DecidableEq, Repr

/-- A chunk ends up with an audio file: cache hit, or successful synthesis of
its text truncated to the 4000-character limit. -/
def chunkSucceeds (env : Stage5Env) (c : Chunk) : Bool :=
  env.cachedChunk c.text || env.synthOk (c.text.take 4000)

/-- One iteration of the loop (lines 902–978): cache check first; on a miss
one synthesis call on the truncated text; failures are counted and skipped. -/
def loopStep (env : Stage5Env) (s : LoopState) (c : Chunk) : LoopState :=
  if env.cachedChunk c.text then
    { s with successful := s.successful + 1, files := s.files ++ [c] }
  else if env.synthOk (c.text.take 4000) then
    { s with
        synthCalls := s.synthCalls + 1
        successful := s.successful + 1
        files := s.files ++ [c] }
  else
    { s with synthCalls := s.synthCalls + 1, failed := s.failed + 1 }

def runChunkLoop (env : Stage5Env) (chunks : List Chunk) : LoopState :=
  chunks.foldl (loopStep env) ⟨0, 0, 0, []⟩

/-- Result and observable trace of one `generateTtsAudio` run. -/
structure Stage5Result where
  success : Bool
  skipped : Bool
  error : Option Stage5Error
  synthCalls : Nat
  subprocCalls : Nat
  successfulChunks : Nat
  failedChunks : Nat
  track : List ManifestEntry
  finalWritten : Bool
  tempLeft : Nat
deriving DecidableEq, Repr

/-- The `{ success: true, skipped: true }` result, with its empty trace. -/
def skippedResult : Stage5Result :=
  { success := true, skipped := true, error := none, synthCalls := 0,
    subprocCalls := 0, successfulChunks := 0, failedChunks := 0, track := [],
    finalWritten := false, tempLeft := 0 }

/-- After the loop, a pushed chunk file exists (cache hit or written by a
successful synthesis); the validation pass re-checks this. -/
def chunkFileExists (env : Stage5Env) (c : Chunk) : Bool := chunkSucceeds env c

/-- The model of Stage 5, `generateTtsAudio` (lines 864–1046): skip when the
final artifact exists or there are no chunks; run the per-chunk loop; fail
when nothing succeeded; validate; concatenate; a thrown error is returned as
`success := false` with the message. -/
def generateTtsAudio (env : Stage5Env) (chunks : List Chunk) : Stage5Result :=
  if env.finalExists then skippedResult
  else if chunks = [] then skippedResult
  else
    let st := runChunkLoop env chunks
    if st.successful = 0 then
      { success := false, skipped := false, error := some .allChunksFailed,
        synthCalls := st.synthCalls, subprocCalls := 0,
        successfulChunks := st.successful, failedChunks := st.failed,
        track := [], finalWritten := false, tempLeft := 0 }
    else
      let valid := st.files.filter (chunkFileExists env)
      if valid = [] then
        { success := false, skipped := false, error := some .noValidChunks,
          synthCalls := st.synthCalls, subprocCalls := 0,
          successfulChunks := st.successful, failedChunks := st.failed,
          track := [], finalWritten := false, tempLeft := 0 }
      else
        let cr := concatenateAudioWithSilence env valid
        if cr.ok then
          { success := true, skipped := false, error := none,
            synthCalls := st.synthCalls, subprocCalls := cr.subprocCalls,
            successfulChunks := st.successful, failedChunks := st.failed,
            track := cr.track, finalWritten := cr.finalWritten,
            tempLeft := cr.tempLeft }
        else
          { success := false, skipped := false, error := cr.error.map .concatErr,
            synthCalls := st.synthCalls, subprocCalls := cr.subprocCalls,
            successfulChunks := st.successful, failedChunks := st.failed,
            track := [], finalWritten := false, tempLeft := cr.tempLeft }

/- ### Loop and manifest characterizations -/

theorem foldl_loopStep (env : Stage5Env) :
    ∀ (chunks : List Chunk) (s : LoopState),
      List.foldl (loopStep env) s chunks =
        { synthCalls := s.synthCalls + (chunks.filter (fun c => !env.cachedChunk c.text)).length,
          successful := s.successful + (chunks.filter (chunkSucceeds env)).length,
          failed := s.failed + (chunks.filter (fun c => !chunkSucceeds env c)).length,
          files := s.files ++ chunks.filter (chunkSucceeds env) } := by
  intro chunks
  induction chunks with
  | nil => intro s; simp
  | cons c rest ih =>
    intro s
    rw [List.foldl_cons, ih]
    by_cases h1 : env.cachedChunk c.text = true
    · have hs : chunkSucceeds env c = true := by simp [chunkSucceeds, h1]
      simp [loopStep, h1, hs, List.filter_cons, LoopState.mk.injEq]
      omega
    · have h1f : env.cachedChunk c.text = false := by
        revert h1; cases env.cachedChunk c.text <;> simp
      by_cases h2 : env.synthOk (c.text.take 4000) = true
      · have hs : chunkSucceeds env c = true := by simp [chunkSucceeds, h2]
        simp [loopStep, h1f, h2, hs, List.filter_cons, LoopState.mk.injEq]
        omega
      · have h2f : env.synthOk (c.text.take 4000) = false := by
          revert h2; cases env.synthOk (c.text.take 4000) <;> simp
        have hs : chunkSucceeds env c = false := by simp [chunkSucceeds, h1f, h2f]
        simp [loopStep, h1f, h2f, hs, List.filter_cons, LoopState.mk.injEq]
        omega

theorem runChunkLoop_eq (env : Stage5Env) (chunks : List Chunk) :
    runChunkLoop env chunks =
      { synthCalls := (chunks.filter (fun c => !env.cachedChunk c.text)).length,
        successful := (chunks.filter (chunkSucceeds env)).length,
        failed := (chunks.filter (fun c => !chunkSucceeds env c)).length,
        files := chunks.filter (chunkSucceeds env) } := by
  unfold runChunkLoop
  rw [foldl_loopStep]
  simp

/-- The texts of the chunk audio files occurring in a manifest, in order. -/
def audioEntries : List ManifestEntry → List (List Char)
  | [] => []
  | .audio t :: rest => t :: audioEntries rest
  | .silence _ :: rest => audioEntries rest

/-- The number of silence clips occurring in a manifest. -/
def silenceCount : List ManifestEntry → Nat
  | [] => 0
  | .audio _ :: rest => silenceCount rest
  | .silence _ :: rest => silenceCount rest + 1

theorem buildManifest_spec (cfg : AudioConfig) :
    ∀ (files : List Chunk),
      audioEntries (buildManifest cfg files) = files.map Chunk.text ∧
      silenceCount (buildManifest cfg files) = files.length - 1 := by
  intro files
  induction files with
  | nil => simp [buildManifest, audioEntries, silenceCount]
  | cons c rest ih =>
    cases rest with
    | nil => simp [buildManifest, audioEntries, silenceCount]
    | cons d rest2 =>
      have heq : buildManifest cfg (c :: d :: rest2)
          = .audio c.text :: .silence (gapDuration cfg (some c.type) (some d.type)) ::
            buildManifest cfg (d :: rest2) := rfl
      rw [heq]
      simp only [audioEntries, silenceCount, List.map_cons, List.length_cons]
      refine ⟨by rw [ih.1]; simp, ?_⟩
      rw [ih.2]
      simp only [List.length_cons]
      omega

theorem concat_success_fields (env : Stage5Env) (files : List Chunk)
    (hne : files ≠ []) (hff : env.ffmpegOk = true) (hsil : env.silenceOk = true)
    (hcat : env.concatOk = true) :
    (concatenateAudioWithSilence env files).ok = true ∧
    (concatenateAudioWithSilence env files).track = buildManifest env.cfg files ∧
    (concatenateAudioWithSilence env files).finalWritten = true ∧
    (concatenateAudioWithSilence env files).tempLeft = 0 := by
  unfold concatenateAudioWithSilence
  rw [if_neg hne]
  by_cases h1 : files.length = 1
  · rw [if_pos h1]
    exact ⟨rfl, rfl, rfl, rfl⟩
  · rw [if_neg h1, if_neg (by simp [hff]), if_neg (by simp [hsil]),
      if_neg (by simp [hcat])]
    exact ⟨rfl, rfl, rfl, rfl⟩

/- ### Claim theorems for Stage 5 -/

/-- C4. At every junction whose following segment is a heading, the inserted
silence gap is `max(defaultGap, titleSilenceBefore)`: the default is
`titleSilenceAfter` when the preceding segment is itself a heading (the two
heading-specific values compete) and `paragraphSilence` otherwise. -/
theorem c4_heading_gap (cfg : AudioConfig) (cur : Option ChunkType) :
    gapDuration cfg cur (some ChunkType.h) =
      if cur = some ChunkType.h then max cfg.titleSilenceAfter cfg.titleSilenceBefore
      else max cfg.paragraphSilence cfg.titleSilenceBefore := by
  simp only [gapDuration]
  by_cases h : cur = some ChunkType.h <;> simp [h]

/-- C5. Stage 5 is idempotent on the final artifact: when the final audio
file already exists — and likewise when the segment sequence is empty — the
run returns success with the skipped marker and performs zero synthesis
calls and zero subprocess invocations. -/
theorem c5_skip_no_work (env : Stage5Env) (chunks : List Chunk)
    (h : env.finalExists = true ∨ chunks = []) :
    generateTtsAudio env chunks = skippedResult ∧
    (generateTtsAudio env chunks).success = true ∧
    (generateTtsAudio env chunks).skipped = true ∧
    (generateTtsAudio env chunks).synthCalls = 0 ∧
    (generateTtsAudio env chunks).subprocCalls = 0 := by
  have heq : generateTtsAudio env chunks = skippedResult := by
    unfold generateTtsAudio
    rcases h with h | h
    · rw [if_pos h]
    · by_cases hf : env.finalExists = true
      · rw [if_pos hf]
      · rw [if_neg hf, if_pos h]
  rw [heq]
  exact ⟨rfl, rfl, rfl, rfl, rfl⟩

/-- Witness for C5 at a concrete environment whose final artifact exists. -/
theorem c5_skip_no_work_witness :
    generateTtsAudio
        { cfg := ⟨1, 2, 3⟩, finalExists := true, cachedChunk := fun _ => false,
          synthOk := fun _ => true, ffmpegOk := true, silenceOk := true,
          concatOk := true }
        [{ text := "a".toList, type := ChunkType.p }] = skippedResult ∧
    (generateTtsAudio
        { cfg := ⟨1, 2, 3⟩, finalExists := true, cachedChunk := fun _ => false,
          synthOk := fun _ => true, ffmpegOk := true, silenceOk := true,
          concatOk := true }
        [{ text := "a".toList, type := ChunkType.p }]).success = true ∧
    (generateTtsAudio
        { cfg := ⟨1, 2, 3⟩, finalExists := true, cachedChunk := fun _ => false,
          synthOk := fun _ => true, ffmpegOk := true, silenceOk := true,
          concatOk := true }
        [{ text := "a".toList, type := ChunkType.p }]).skipped = true ∧
    (generateTtsAudio
        { cfg := ⟨1, 2, 3⟩, finalExists := true, cachedChunk := fun _ => false,
          synthOk := fun _ => true, ffmpegOk := true, silenceOk := true,
          concatOk := true }
        [{ text := "a".toList, type := ChunkType.p }]).synthCalls = 0 ∧
    (generateTtsAudio
        { cfg := ⟨1, 2, 3⟩, finalExists := true, cachedChunk := fun _ => false,
          synthOk := fun _ => true, ffmpegOk := true, silenceOk := true,
          concatOk := true }
        [{ text := "a".toList, type := ChunkType.p }]).subprocCalls = 0 :=
  c5_skip_no_work _ _ (Or.inl rfl)

/-- C6. When synthesis fails for every segment (no cache hits, all synthesis
calls fail), Stage 5 reports a fatal error and writes no final artifact. -/
theorem c6_total_failure_fatal (env : Stage5Env) (chunks : List Chunk)
    (hf : env.finalExists = false) (hne : chunks ≠ [])
    (hall : ∀ c ∈ chunks,
      env.cachedChunk c.text = false ∧ env.synthOk (c.text.take 4000) = false) :
    (generateTtsAudio env chunks).success = false ∧
    (generateTtsAudio env chunks).error = some Stage5Error.allChunksFailed ∧
    (generateTtsAudio env chunks).finalWritten = false ∧
    (generateTtsAudio env chunks).track = [] := by
  have hzero : (runChunkLoop env chunks).successful = 0 := by
    rw [runChunkLoop_eq]
    show (chunks.filter (chunkSucceeds env)).length = 0
    rw [List.length_eq_zero, List.filter_eq_nil_iff]
    intro c hc
    have h := hall c hc
    simp [chunkSucceeds, h.1, h.2]
  have heq : generateTtsAudio env chunks =
      { success := false, skipped := false, error := some .allChunksFailed,
        synthCalls := (runChunkLoop env chunks).synthCalls, subprocCalls := 0,
        successfulChunks := (runChunkLoop env chunks).successful,
        failedChunks := (runChunkLoop env chunks).failed,
        track := [], finalWritten := false, tempLeft := 0 } := by
    unfold generateTtsAudio
    rw [if_neg (by simp [hf]), if_neg hne, if_pos hzero]
  rw [heq]
  exact ⟨rfl, rfl, rfl, rfl⟩

/-- Witness for C6: two chunks, every synthesis path failing. -/
theorem c6_total_failure_fatal_witness :
    (generateTtsAudio
        { cfg := ⟨1, 2, 3⟩, finalExists := false, cachedChunk := fun _ => false,
          synthOk := fun _ => false, ffmpegOk := true, silenceOk := true,
          concatOk := true }
        [{ text := "a".toList, type := ChunkType.p },
         { text := "b".toList, type := ChunkType.h, level := some 1 }]).success = false ∧
    (generateTtsAudio
        { cfg := ⟨1, 2, 3⟩, finalExists := false, cachedChunk := fun _ => false,
          synthOk := fun _ => false, ffmpegOk := true, silenceOk := true,
          concatOk := true }
        [{ text := "a".toList, type := ChunkType.p },
         { text := "b".toList, type := ChunkType.h, level := some 1 }]).error
      = some Stage5Error.allChunksFailed ∧
    (generateTtsAudio
        { cfg := ⟨1, 2, 3⟩, finalExists := false, cachedChunk := fun _ => false,
          synthOk := fun _ => false, ffmpegOk := true, silenceOk := true,
          concatOk := true }
        [{ text := "a".toList, type := ChunkType.p },
         { text := "b".toList, type := ChunkType.h, level := some 1 }]).finalWritten = false ∧
    (generateTtsAudio
        { cfg := ⟨1, 2, 3⟩, finalExists := false, cachedChunk := fun _ => false,
          synthOk := fun _ => false, ffmpegOk := true, silenceOk := true,
          concatOk := true }
        [{ text := "a".toList, type := ChunkType.p },
         { text := "b".toList, type := ChunkType.h, level := some 1 }]).track = [] :=
  c6_total_failure_fatal _ _ rfl (by simp) (by decide)

/-- C7. Under partial failure with at least one success, the loop runs to
the end, the run succeeds counting the failed segments, and the final track
holds exactly the successful segments' audio in order with one silence gap
between each adjacent pair (N audio entries, N−1 silences). -/
theorem c7_partial_failure_assembly (env : Stage5Env) (chunks : List Chunk)
    (hf : env.finalExists = false) (hne : chunks ≠ [])
    (hff : env.ffmpegOk = true) (hsil : env.silenceOk = true)
    (hcat : env.concatOk = true)
    (hpos : 0 < (chunks.filter (chunkSucceeds env)).length) :
    (generateTtsAudio env chunks).success = true ∧
    (generateTtsAudio env chunks).failedChunks
      = (chunks.filter (fun c => !chunkSucceeds env c)).length ∧
    (generateTtsAudio env chunks).finalWritten = true ∧
    audioEntries (generateTtsAudio env chunks).track
      = (chunks.filter (chunkSucceeds env)).map Chunk.text ∧
    silenceCount (generateTtsAudio env chunks).track
      = (chunks.filter (chunkSucceeds env)).length - 1 := by
  have hvalid : (chunks.filter (chunkSucceeds env)).filter (chunkFileExists env)
      = chunks.filter (chunkSucceeds env) := by
    rw [List.filter_eq_self]
    intro a ha
    exact List.of_mem_filter ha
  have hFne : chunks.filter (chunkSucceeds env) ≠ [] := by
    intro hcon
    rw [hcon] at hpos
    simp at hpos
  have hcs := concat_success_fields env (chunks.filter (chunkSucceeds env))
    hFne hff hsil hcat
  have heq : generateTtsAudio env chunks =
      { success := true, skipped := false, error := none,
        synthCalls := (chunks.filter (fun c => !env.cachedChunk c.text)).length,
        subprocCalls :=
          (concatenateAudioWithSilence env (chunks.filter (chunkSucceeds env))).subprocCalls,
        successfulChunks := (chunks.filter (chunkSucceeds env)).length,
        failedChunks := (chunks.filter (fun c => !chunkSucceeds env c)).length,
        track := (concatenateAudioWithSilence env (chunks.filter (chunkSucceeds env))).track,
        finalWritten :=
          (concatenateAudioWithSilence env (chunks.filter (chunkSucceeds env))).finalWritten,
        tempLeft :=
          (concatenateAudioWithSilence env (chunks.filter (chunkSucceeds env))).tempLeft } := by
    unfold generateTtsAudio
    rw [if_neg (by simp [hf]), if_neg hne, runChunkLoop_eq]
    simp only
    rw [if_neg (by omega), hvalid, if_neg hFne]
    rw [if_pos hcs.1]
  rw [heq]
  refine ⟨rfl, rfl, ?_, ?_, ?_⟩
  · exact hcs.2.2.1
  · show audioEntries (concatenateAudioWithSilence env (chunks.filter (chunkSucceeds env))).track
      = (chunks.filter (chunkSucceeds env)).map Chunk.text
    rw [hcs.2.1]
    exact (buildManifest_spec env.cfg _).1
  · show silenceCount (concatenateAudioWithSilence env (chunks.filter (chunkSucceeds env))).track
      = (chunks.filter (chunkSucceeds env)).length - 1
    rw [hcs.2.1]
    exact (buildManifest_spec env.cfg _).2

/-- Witness for C7: three chunks, the middle one failing synthesis. -/
theorem c7_partial_failure_assembly_witness :
    (generateTtsAudio
        { cfg := ⟨1, 2, 3⟩, finalExists := false, cachedChunk := fun _ => false,
          synthOk := fun t => decide (t ≠ "b".toList), ffmpegOk := true,
          silenceOk := true, concatOk := true }
        [{ text := "a".toList, type := ChunkType.p },
         { text := "b".toList, type := ChunkType.p },
         { text := "c".toList, type := ChunkType.h, level := some 1 }]).success = true ∧
    (generateTtsAudio
        { cfg := ⟨1, 2, 3⟩, finalExists := false, cachedChunk := fun _ => false,
          synthOk := fun t => decide (t ≠ "b".toList), ffmpegOk := true,
          silenceOk := true, concatOk := true }
        [{ text := "a".toList, type := ChunkType.p },
         { text := "b".toList, type := ChunkType.p },
         { text := "c".toList, type := ChunkType.h, level := some 1 }]).failedChunks
      = ([{ text := "a".toList, type := ChunkType.p },
          { text := "b".toList, type := ChunkType.p },
          { text := "c".toList, type := ChunkType.h, level := some 1 }].filter
          (fun c => !chunkSucceeds
            { cfg := ⟨1, 2, 3⟩, finalExists := false, cachedChunk := fun _ => false,
              synthOk := fun t => decide (t ≠ "b".toList), ffmpegOk := true,
              silenceOk := true, concatOk := true } c)).length ∧
    (generateTtsAudio
        { cfg := ⟨1, 2, 3⟩, finalExists := false, cachedChunk := fun _ => false,
          synthOk := fun t => decide (t ≠ "b".toList), ffmpegOk := true,
          silenceOk := true, concatOk := true }
        [{ text := "a".toList, type := ChunkType.p },
         { text := "b".toList, type := ChunkType.p },
         { text := "c".toList, type := ChunkType.h, level := some 1 }]).finalWritten = true ∧
    audioEntries (generateTtsAudio
        { cfg := ⟨1, 2, 3⟩, finalExists := false, cachedChunk := fun _ => false,
          synthOk := fun t => decide (t ≠ "b".toList), ffmpegOk := true,
          silenceOk := true, concatOk := true }
        [{ text := "a".toList, type := ChunkType.p },
         { text := "b".toList, type := ChunkType.p },
         { text := "c".toList, type := ChunkType.h, level := some 1 }]).track
      = ([{ text := "a".toList, type := ChunkType.p },
          { text := "b".toList, type := ChunkType.p },
          { text := "c".toList, type := ChunkType.h, level := some 1 }].filter
          (chunkSucceeds
            { cfg := ⟨1, 2, 3⟩, finalExists := false, cachedChunk := fun _ => false,
              synthOk := fun t => decide (t ≠ "b".toList), ffmpegOk := true,
              silenceOk := true, concatOk := true })).map Chunk.text ∧
    silenceCount (generateTtsAudio
        { cfg := ⟨1, 2, 3⟩, finalExists := false, cachedChunk := fun _ => false,
          synthOk := fun t => decide (t ≠ "b".toList), ffmpegOk := true,
          silenceOk := true, concatOk := true }
        [{ text := "a".toList, type := ChunkType.p },
         { text := "b".toList, type := ChunkType.p },
         { text := "c".toList, type := ChunkType.h, level := some 1 }]).track
      = ([{ text := "a".toList, type := ChunkType.p },
          { text := "b".toList, type := ChunkType.p },
          { text := "c".toList, type := ChunkType.h, level := some 1 }].filter
          (chunkSucceeds
            { cfg := ⟨1, 2, 3⟩, finalExists := false, cachedChunk := fun _ => false,
              synthOk := fun t => decide (t ≠ "b".toList), ffmpegOk := true,
              silenceOk := true, concatOk := true })).length - 1 :=
  c7_partial_failure_assembly _ _ rfl (by simp) rfl rfl rfl (by decide)

/-- C8, counterexample: with two uncached chunks whose synthesis succeeds and
ffmpeg absent, the run still performs both synthesis calls and only then
fails on the missing encoder — the probe does not happen before the
synthesis work of the stage, contradicting the claim. -/
theorem c8_counterexample :
    (generateTtsAudio
        { cfg := ⟨1, 2, 3⟩, finalExists := false, cachedChunk := fun _ => false,
          synthOk := fun _ => true, ffmpegOk := false, silenceOk := true,
          concatOk := true }
        [{ text := "a".toList, type := ChunkType.p },
         { text := "b".toList, type := ChunkType.p }]).synthCalls = 2 ∧
    (generateTtsAudio
        { cfg := ⟨1, 2, 3⟩, finalExists := false, cachedChunk := fun _ => false,
          synthOk := fun _ => true, ffmpegOk := false, silenceOk := true,
          concatOk := true }
        [{ text := "a".toList, type := ChunkType.p },
         { text := "b".toList, type := ChunkType.p }]).success = false ∧
    (generateTtsAudio
        { cfg := ⟨1, 2, 3⟩, finalExists := false, cachedChunk := fun _ => false,
          synthOk := fun _ => true, ffmpegOk := false, silenceOk := true,
          concatOk := true }
        [{ text := "a".toList, type := ChunkType.p },
         { text := "b".toList, type := ChunkType.p }]).error
      = some (Stage5Error.concatErr ConcatError.ffmpegMissing) := by
  decide

/-- C8, amended: the ffmpeg probe happens at the start of the concatenation
step (only on the multi-file path), and its absence fails that step with the
distinct actionable error before any silence generation, manifest write, or
concatenation — but after the per-segment synthesis loop has already run,
and not at all when exactly one file survives. -/
theorem c8_ffmpeg_probe_in_concat (env : Stage5Env) (files : List Chunk)
    (h2 : 2 ≤ files.length) (hff : env.ffmpegOk = false) :
    concatenateAudioWithSilence env files =
      { ok := false, error := some ConcatError.ffmpegMissing, subprocCalls := 1,
        track := [], finalWritten := false, silenceFiles := [],
        manifestWritten := false, tempLeft := 0 } := by
  unfold concatenateAudioWithSilence
  rw [if_neg (by intro hcon; rw [hcon] at h2; simp at h2),
    if_neg (by omega), if_pos hff]

/-- Witness for the amended C8 at a concrete two-file environment. -/
theorem c8_ffmpeg_probe_in_concat_witness :
    concatenateAudioWithSilence
        { cfg := ⟨1, 2, 3⟩, finalExists := false, cachedChunk := fun _ => false,
          synthOk := fun _ => true, ffmpegOk := false, silenceOk := true,
          concatOk := true }
        [{ text := "a".toList, type := ChunkType.p },
         { text := "b".toList, type := ChunkType.p }] =
      { ok := false, error := some ConcatError.ffmpegMissing, subprocCalls := 1,
        track := [], finalWritten := false, silenceFiles := [],
        manifestWritten := false, tempLeft := 0 } :=
  c8_ffmpeg_probe_in_concat _ _ (by decide) rfl

/-- C9, counterexample: when the final ffmpeg concat invocation fails, the
temporary manifest and the silence clip are NOT cleaned up (the error path
rethrows before the cleanup code), contradicting the claim that cleanup
happens regardless of the subprocess's exit status. -/
theorem c9_counterexample :
    (concatenateAudioWithSilence
        { cfg := ⟨1, 2, 3⟩, finalExists := false, cachedChunk := fun _ => false,
          synthOk := fun _ => true, ffmpegOk := true, silenceOk := true,
          concatOk := false }
        [{ text := "a".toList, type := ChunkType.p },
         { text := "b".toList, type := ChunkType.p }]).error
      = some ConcatError.concatFailed ∧
    (concatenateAudioWithSilence
        { cfg := ⟨1, 2, 3⟩, finalExists := false, cachedChunk := fun _ => false,
          synthOk := fun _ => true, ffmpegOk := true, silenceOk := true,
          concatOk := false }
        [{ text := "a".toList, type := ChunkType.p },
         { text := "b".toList, type := ChunkType.p }]).manifestWritten = true ∧
    (concatenateAudioWithSilence
        { cfg := ⟨1, 2, 3⟩, finalExists := false, cachedChunk := fun _ => false,
          synthOk := fun _ => true, ffmpegOk := true, silenceOk := true,
          concatOk := false }
        [{ text := "a".toList, type := ChunkType.p },
         { text := "b".toList, type := ChunkType.p }]).silenceFiles = [1] ∧
    (concatenateAudioWithSilence
        { cfg := ⟨1, 2, 3⟩, finalExists := false, cachedChunk := fun _ => false,
          synthOk := fun _ => true, ffmpegOk := true, silenceOk := true,
          concatOk := false }
        [{ text := "a".toList, type := ChunkType.p },
         { text := "b".toList, type := ChunkType.p }]).tempLeft = 2 := by
  decide

/-- C9, amended: the temporary manifest and silence files are cleaned up
(best-effort) only when the concat subprocess succeeds; when it fails, the
error propagates and all temp files created during the run are left behind. -/
theorem c9_cleanup_only_after_success (env : Stage5Env) (files : List Chunk)
    (h2 : 2 ≤ files.length) (hff : env.ffmpegOk = true)
    (hsil : env.silenceOk = true) :
    (env.concatOk = true →
      (concatenateAudioWithSilence env files).tempLeft = 0 ∧
      (concatenateAudioWithSilence env files).ok = true) ∧
    (env.concatOk = false →
      (concatenateAudioWithSilence env files).error = some ConcatError.concatFailed ∧
      (concatenateAudioWithSilence env files).manifestWritten = true ∧
      (concatenateAudioWithSilence env files).tempLeft =
        (concatenateAudioWithSilence env files).silenceFiles.length + 1) := by
  have hne : files ≠ [] := by
    intro hcon
    rw [hcon] at h2
    simp at h2
  constructor
  · intro hcat
    have h := concat_success_fields env files hne hff hsil hcat
    exact ⟨h.2.2.2, h.1⟩
  · intro hcat
    unfold concatenateAudioWithSilence
    rw [if_neg hne, if_neg (by omega), if_neg (by simp [hff]),
      if_neg (by simp [hsil]), if_pos hcat]
    exact ⟨rfl, rfl, rfl⟩

/-- Witness for the amended C9 at a concrete two-file environment. -/
theorem c9_cleanup_only_after_success_witness :
    ((({ cfg := ⟨1, 2, 3⟩, finalExists := false, cachedChunk := fun _ => false,
          synthOk := fun _ => true, ffmpegOk := true, silenceOk := true,
          concatOk := true } : Stage5Env).concatOk = true →
      (concatenateAudioWithSilence
        { cfg := ⟨1, 2, 3⟩, finalExists := false, cachedChunk := fun _ => false,
          synthOk := fun _ => true, ffmpegOk := true, silenceOk := true,
          concatOk := true }
        [{ text := "a".toList, type := ChunkType.p },
         { text := "b".toList, type := ChunkType.p }]).tempLeft = 0 ∧
      (concatenateAudioWithSilence
        { cfg := ⟨1, 2, 3⟩, finalExists := false, cachedChunk := fun _ => false,
          synthOk := fun _ => true, ffmpegOk := true, silenceOk := true,
          concatOk := true }
        [{ text := "a".toList, type := ChunkType.p },
         { text := "b".toList, type := ChunkType.p }]).ok = true) ∧
    (({ cfg := ⟨1, 2, 3⟩, finalExists := false, cachedChunk := fun _ => false,
          synthOk := fun _ => true, ffmpegOk := true, silenceOk := true,
          concatOk := true } : Stage5Env).concatOk = false →
      (concatenateAudioWithSilence
        { cfg := ⟨1, 2, 3⟩, finalExists := false, cachedChunk := fun _ => false,
          synthOk := fun _ => true, ffmpegOk := true, silenceOk := true,
          concatOk := true }
        [{ text := "a".toList, type := ChunkType.p },
         { text := "b".toList, type := ChunkType.p }]).error = some ConcatError.concatFailed ∧
      (concatenateAudioWithSilence
        { cfg := ⟨1, 2, 3⟩, finalExists := false, cachedChunk := fun _ => false,
          synthOk := fun _ => true, ffmpegOk := true, silenceOk := true,
          concatOk := true }
        [{ text := "a".toList, type := ChunkType.p },
         { text := "b".toList, type := ChunkType.p }]).manifestWritten = true ∧
      (concatenateAudioWithSilence
        { cfg := ⟨1, 2, 3⟩, finalExists := false, cachedChunk := fun _ => false,
          synthOk := fun _ => true, ffmpegOk := true, silenceOk := true,
          concatOk := true }
        [{ text := "a".toList, type := ChunkType.p },
         { text := "b".toList, type := ChunkType.p }]).tempLeft =
        (concatenateAudioWithSilence
          { cfg := ⟨1, 2, 3⟩, finalExists := false, cachedChunk := fun _ => false,
            synthOk := fun _ => true, ffmpegOk := true, silenceOk := true,
            concatOk := true }
          [{ text := "a".toList, type := ChunkType.p },
           { text := "b".toList, type := ChunkType.p }]).silenceFiles.length + 1)) :=
  c9_cleanup_only_after_success _ _ (by decide) rfl rfl

end Kokoro
